import Mathlib

/-!
Verification of `find-unused-steps.mjs`, a zx (shell-scripting JavaScript)
tool that scans a Gauge test project for step definitions and concepts that
are declared but never referenced from the specification files.

The script shells out to `find`, `cat`, `awk` and `grep -E`; zx runs every
command under `set -euo pipefail`, so a pipeline whose rightmost failing
component exits non-zero makes the awaited template call throw.  The
embedding below models file contents as lists of lines (`List String`),
characters as `Char`, and each shell/text stage as a pure Lean function
translated from the corresponding command or JavaScript expression.
-/

/-- Whitespace class of POSIX `[[:space:]]` / grep `\s`:
space, tab, newline, carriage return, vertical tab, form feed. -/
def isSpaceChar (c : Char) : Bool :=
  c = ' ' ∨ c = '\t' ∨ c = '\n' ∨ c = '\r' ∨ c = '\x0b' ∨ c = '\x0c'

/-- True when the character `c` does not occur in the list. -/
def hasNoChar (c : Char) : List Char → Bool
  | [] => true
  | d :: ds => if d = c then false else hasNoChar c ds

/-- A `{stepName, pattern}` record as built by `createDefinition` in the source. -/
structure Definition where
  stepName : String
  pattern : String
deriving DecidableEq, Repr

/-- A definition after the usage check has attached the `unused` flag
(the JavaScript spread `{...definition, unused}`). -/
structure CheckedDefinition where
  stepName : String
  pattern : String
  unused : Bool
deriving DecidableEq, Repr

/-- Source `createDefinition(stepName, pattern)`. -/
def createDefinition (stepName pattern : String) : Definition :=
  ⟨stepName, pattern⟩

/-- Helper for the placeholder scan: given the characters after a `<`,
find the first `>` reachable without crossing a newline (JavaScript `.`
does not match `\n`), returning the remainder after that `>`. -/
def findGtRest : List Char → Option (List Char)
  | [] => none
  | c :: cs => if c = '>' then some cs else if c = '\n' then none else findGtRest cs

/-- Fuelled scan modelling `name.replaceAll(/\<.*?\>/g, ".+")`: at each `<`
from which a `>` is reachable, the whole lazy span `<...>` is replaced by the
two characters `.+`; every other character is copied.  The fuel only makes the
recursion structural; `replacePlaceholders` supplies enough for all inputs. -/
def replacePlaceholdersF : Nat → List Char → List Char
  | 0, l => l
  | _ + 1, [] => []
  | f + 1, c :: cs =>
    if c = '<' then
      match findGtRest cs with
      | some rest => '.' :: '+' :: replacePlaceholdersF f rest
      | none => '<' :: replacePlaceholdersF f cs
    else c :: replacePlaceholdersF f cs

/-- The placeholder replacement of `createStepNamePattern`. -/
def replacePlaceholders (l : List Char) : List Char :=
  replacePlaceholdersF (l.length + 1) l

/-- Source `createStepNamePattern(name)`:
the ERE string `^\*\s+` + name-with-placeholders-replaced + `\s*$`. -/
def createStepNamePattern (name : String) : String :=
  "^\\*\\s+" ++ String.mk (replacePlaceholders name.data) ++ "\\s*$"

/-- Source `createDefinitions(stepNames)`. -/
def createDefinitions (stepNames : List String) : List Definition :=
  stepNames.map (fun stepName => createDefinition stepName (createStepNamePattern stepName))

/-! ### A matcher for the extended-regular-expression fragment the tool emits

`isUnused` runs `grep -E` over the generated pattern.  The patterns the
pattern builder emits (for names made of literal text and placeholders) fall
in the fragment "anchored sequence of possibly-quantified atoms": literal
characters, the class `\s`, the wildcard `.`, with postfix `+` or `*`.
The parser below accepts exactly that fragment and rejects (returns `none`)
anything outside it, so matching is only ever asserted for patterns whose
grep semantics the model covers. -/

/-- One regex atom. -/
inductive Atom where
  | lit (c : Char)
  | ws
  | dot
deriving DecidableEq, Repr

/-- Postfix quantifier of an atom. -/
inductive Quant where
  | one
  | plus
  | star
deriving DecidableEq, Repr

/-- A quantified atom. -/
abbrev QAtom := Atom × Quant

/-- Whether an atom matches one character (grep works line by line, so `.`
matches any character other than a newline). -/
def atomMatches : Atom → Char → Bool
  | .lit d, c => c = d
  | .ws, c => isSpaceChar c
  | .dot, c => !(c = '\n')

/-- Fuelled backtracking matcher for a sequence of quantified atoms against a
whole line.  Every recursive call strictly decreases `qs.length + cs.length`,
so the fuel passed by `matchSeq` is always sufficient. -/
def matchSeqF : Nat → List QAtom → List Char → Bool
  | 0, _, _ => false
  | _ + 1, [], cs => cs.isEmpty
  | _ + 1, (_, .one) :: _, [] => false
  | f + 1, (a, .one) :: qs, c :: cs => atomMatches a c && matchSeqF f qs cs
  | _ + 1, (_, .plus) :: _, [] => false
  | f + 1, (a, .plus) :: qs, c :: cs => atomMatches a c && matchSeqF f ((a, .star) :: qs) cs
  | f + 1, (_, .star) :: qs, [] => matchSeqF f qs []
  | f + 1, (a, .star) :: qs, c :: cs =>
      matchSeqF f qs (c :: cs) || (atomMatches a c && matchSeqF f ((a, .star) :: qs) cs)

/-- Full-line match of a quantified-atom sequence. -/
def matchSeq (qs : List QAtom) (cs : List Char) : Bool :=
  matchSeqF (qs.length + cs.length + 1) qs cs

/-- Atom denoted by a backslash escape: `\s` is the whitespace class and the
escaped metacharacters stand for themselves; anything else is out of fragment. -/
def escAtom (c : Char) : Option Atom :=
  if c = 's' then some Atom.ws
  else if c = '*' ∨ c = '.' ∨ c = '+' ∨ c = '\\' ∨ c = '^' ∨ c = '$' then some (Atom.lit c)
  else none

/-- Atom denoted by an unescaped character: `.` is the wildcard, unescaped
ERE metacharacters are out of fragment, anything else is a literal. -/
def plainAtom (c : Char) : Option Atom :=
  if c = '.' then some Atom.dot
  else if c = '\\' ∨ c = '*' ∨ c = '+' ∨ c = '?' ∨ c = '(' ∨ c = ')' ∨ c = '[' ∨ c = ']'
      ∨ c = '|' ∨ c = '^' ∨ c = '$' ∨ c = '\x7b' ∨ c = '\x7d' then none
  else some (Atom.lit c)

/-- Parse the body of an anchored pattern into quantified atoms. -/
def parseAtoms : List Char → Option (List QAtom)
  | [] => some []
  | '\\' :: c :: '+' :: rest =>
      (escAtom c).bind (fun a => (parseAtoms rest).map (fun qs => (a, Quant.plus) :: qs))
  | '\\' :: c :: '*' :: rest =>
      (escAtom c).bind (fun a => (parseAtoms rest).map (fun qs => (a, Quant.star) :: qs))
  | '\\' :: c :: rest =>
      (escAtom c).bind (fun a => (parseAtoms rest).map (fun qs => (a, Quant.one) :: qs))
  | c :: '+' :: rest =>
      (plainAtom c).bind (fun a => (parseAtoms rest).map (fun qs => (a, Quant.plus) :: qs))
  | c :: '*' :: rest =>
      (plainAtom c).bind (fun a => (parseAtoms rest).map (fun qs => (a, Quant.star) :: qs))
  | c :: rest =>
      (plainAtom c).bind (fun a => (parseAtoms rest).map (fun qs => (a, Quant.one) :: qs))

/-- Parse a `^...$`-anchored step pattern as produced by
`createStepNamePattern`; `none` outside the covered fragment. -/
def parseStepPattern (pat : String) : Option (List QAtom) :=
  match pat.data with
  | '^' :: rest =>
      if rest.getLast? = some '$' then parseAtoms rest.dropLast else none
  | _ => none

/-- Whether `grep -E pat` selects the line.  Defined on the anchored fragment
emitted by the pattern builder; patterns outside the fragment are treated as
not matching (no claim below relies on a pattern the parser rejects). -/
def greLineMatch (pat line : String) : Bool :=
  match parseStepPattern pat with
  | some qs => matchSeq qs line.data
  | none => false

/-! ### Step extraction (`findSteps`)

The source pipeline is
`find srcDir -name "*kt" | xargs cat | awk '/@Step/,/\)/' |
 awk '/,$/ { printf("%s", $0); next } 1' | grep -o '".*"'`
followed by splitting the stdout into lines and `convertToStepNames`.
The model takes the list of `.kt` file contents (each a list of lines);
`find | xargs cat` is their concatenation. -/

/-- Whether `small` occurs at the start of `l`. -/
def startsWithChars : List Char → List Char → Bool
  | [], _ => true
  | _ :: _, [] => false
  | c :: cs, d :: ds => c = d && startsWithChars cs ds

/-- Whether `small` occurs contiguously anywhere inside `l`
(substring containment, as in the awk patterns `/@Step/` and `/\)/`). -/
def hasSubChars (small : List Char) : List Char → Bool
  | [] => small.isEmpty
  | d :: ds => startsWithChars small (d :: ds) || hasSubChars small ds

/-- The awk range filter `awk '/@Step/,/\)/'`: print from a line containing
`@Step` through the next line containing `)` (a line containing both starts
and ends its range).  The boolean is the in-range state. -/
def awkRange : Bool → List String → List String
  | _, [] => []
  | false, l :: ls =>
      if hasSubChars "@Step".data l.data then
        l :: awkRange (!l.data.contains ')') ls
      else
        awkRange false ls
  | true, l :: ls => l :: awkRange (!l.data.contains ')') ls

/-- The joining filter `awk '/,$/ { printf("%s", $0); next } 1'`: a line
ending in a comma is printed without its newline, gluing it to the following
line(s); `acc` is the glued text pending output. -/
def awkJoin (acc : String) : List String → List String
  | [] => if acc.isEmpty then [] else [acc]
  | l :: ls =>
      if l.data.getLast? = some ',' then awkJoin (acc ++ l) ls
      else (acc ++ l) :: awkJoin "" ls

/-- `grep -o '".*"'` on one line: the greedy match runs from the first `"` to
the last `"`, so a line with at least two quote characters contributes the
span between them (quotes included); other lines contribute nothing. -/
def greedyQuoteSpan (l : List Char) : Option (List Char) :=
  match l.dropWhile (fun c => !(c = '"')) with
  | [] => none
  | _ :: rest =>
    match rest.reverse.dropWhile (fun c => !(c = '"')) with
    | [] => none
    | _ :: revMid => some ('"' :: (revMid.reverse ++ ['"']))

/-- Helper for the lazy quote scan: characters up to the next `"` (which the
JavaScript `.` cannot reach across a newline), plus the remainder after it. -/
def findQuote : List Char → Option (List Char × List Char)
  | [] => none
  | c :: cs =>
      if c = '"' then some ([], cs)
      else if c = '\n' then none
      else (findQuote cs).map (fun p => (c :: p.1, p.2))

/-- Fuelled scan modelling `line.match(/\".*?\"/g)` followed by stripping the
quotes: every lazily-matched `"..."` span contributes its contents. -/
def lazyQuotedF : Nat → List Char → List (List Char)
  | 0, _ => []
  | _ + 1, [] => []
  | f + 1, c :: cs =>
      if c = '"' then
        match findQuote cs with
        | some (content, rest) => content :: lazyQuotedF f rest
        | none => []
      else lazyQuotedF f cs

/-- The quoted substrings of a line, in order, without their quotes. -/
def lazyQuoted (l : List Char) : List (List Char) :=
  lazyQuotedF (l.length + 1) l

/-- Source `convertToStepNames(line)`: each lazily-quoted substring of the
logical line becomes one `Definition`. -/
def convertToStepNames (line : String) : List Definition :=
  createDefinitions ((lazyQuoted line.data).map String.mk)

/-- The logical declaration lines: concatenated source run through the two
awk filters. -/
def stepLogicalLines (ktFiles : List (List String)) : List String :=
  awkJoin "" (awkRange false ktFiles.flatten)

/-- The stdout lines of the step-extraction pipeline: one greedy quote span
per logical line that has one. -/
def stepQuotedLines (ktFiles : List (List String)) : List (List Char) :=
  (stepLogicalLines ktFiles).filterMap (fun l => greedyQuoteSpan l.data)

/-- Source `findSteps(srcDir)`.  When the pipeline's final `grep -o` selects
nothing it exits 1; under zx's `set -euo pipefail` the awaited command then
throws, which the model records as `Except.error ()`.  Otherwise each output
line becomes one step group. -/
def findSteps (ktFiles : List (List String)) : Except Unit (List (List Definition)) :=
  if (stepQuotedLines ktFiles).isEmpty then Except.error ()
  else Except.ok ((stepQuotedLines ktFiles).map (fun s => convertToStepNames (String.mk s)))

/-! ### Concept extraction (`findConcepts`) -/

/-- Whether `grep -oE '^\#\s+.*\s*$'` selects a line: a `#` first, then at
least one whitespace character (the rest is arbitrary). -/
def isConceptHeader (line : String) : Bool :=
  match line.data with
  | '#' :: c :: _ => isSpaceChar c
  | _ => false

/-- JavaScript `String.prototype.trim` on the ASCII whitespace the corpus
uses: drop leading and trailing whitespace characters. -/
def jsTrim (l : List Char) : List Char :=
  ((l.dropWhile isSpaceChar).reverse.dropWhile isSpaceChar).reverse

/-- Source `concept.replaceAll('#', '').trim()`: delete every `#`, trim. -/
def conceptName (line : String) : String :=
  String.mk (jsTrim (line.data.filter (fun c => !(c = '#'))))

/-- Source `findConcepts(specsDir)`, over the list of `.cpt` file contents.
With no `.cpt` files the guard returns `[]` (the first `find` exits 0 on an
empty result).  With files but no header line the second pipeline's grep
exits 1 and zx throws (`Except.error ()`).  Otherwise every header line
becomes one concept `Definition`. -/
def findConcepts (cptFiles : List (List String)) : Except Unit (List Definition) :=
  if cptFiles.isEmpty then Except.ok []
  else
    match cptFiles.flatten.filter isConceptHeader with
    | [] => Except.error ()
    | headers =>
        Except.ok (headers.map (fun l =>
          createDefinition (conceptName l) (createStepNamePattern (conceptName l))))

/-! ### Usage check and driver -/

/-- Source `isUnused(definition, specsDir)`.  The corpus is the line list of
`find specsDir -type f -exec cat {} +`; `none` models that read failing.
The command `... | grep -E pattern | wc -l` runs under `set -euo pipefail`,
so it throws both when the read fails and when grep selects no line (grep
exit 1); the surrounding `try/catch` turns **any** throw into `true` and a
successful pipeline into `false`. -/
def isUnused (corpus : Option (List String)) (pat : String) : Bool :=
  match corpus with
  | none => true
  | some lines => !lines.any (greLineMatch pat)

/-- The annotation `{...definition, unused: unused}` built in
`findUnusedSteps` and `findUnusedConcepts`. -/
def checkDefinition (corpus : Option (List String)) (d : Definition) : CheckedDefinition :=
  ⟨d.stepName, d.pattern, isUnused corpus d.pattern⟩

/-- Source `findUnusedSteps(steps, specsDir)`: annotate every member of every
group, keep the groups in which some member is unused. -/
def findUnusedSteps (steps : List (List Definition)) (corpus : Option (List String)) :
    List (List CheckedDefinition) :=
  (steps.map (fun g => g.map (checkDefinition corpus))).filter (fun g => g.any (fun d => d.unused))

/-- Source `printUnusedSteps(steps)` as the list of lines written to stdout:
a header, then `* name` for each unused member of each group, then a blank. -/
def printUnusedSteps (steps : List (List CheckedDefinition)) : List String :=
  "Unused step names:" ::
    ((steps.flatMap (fun g =>
        (g.filter (fun d => d.unused)).map (fun d => "* " ++ d.stepName))) ++ [""])

/-- Source `findUnusedConcepts(concepts, specsDir)`. -/
def findUnusedConcepts (concepts : List Definition) (corpus : Option (List String)) :
    List CheckedDefinition :=
  (concepts.map (checkDefinition corpus)).filter (fun c => c.unused)

/-- `steps.reduce((sum, step) => sum + step.length, 0)` in `printSummary`. -/
def stepNameCount (steps : List (List Definition)) : Nat :=
  steps.foldl (fun sum step => sum + step.length) 0

/-- `unusedSteps.reduce((sum, step) => sum + step.filter(def => def.unused).length, 0)`. -/
def unusedStepNameCount (unusedSteps : List (List CheckedDefinition)) : Nat :=
  unusedSteps.foldl (fun sum step => sum + (step.filter (fun d => d.unused)).length) 0

/-- The dashed separator line `printSummary` prints. -/
def summarySeparator : String :=
  "------------------------------------------------------"

/-- Source `printSummary(steps, unusedSteps, concepts, unusedConcepts)` as the
list of lines written to stdout: counts when something is unused, otherwise
the `ALL CLEAN!` line. -/
def printSummary (steps : List (List Definition)) (unusedSteps : List (List CheckedDefinition))
    (concepts : List Definition) (unusedConcepts : List CheckedDefinition) : List String :=
  summarySeparator ::
    ((if 0 < unusedStepNameCount unusedSteps ∨ 0 < unusedConcepts.length then
        ["Unused steps: " ++ toString unusedSteps.length ++ " / " ++ toString steps.length,
         "Unused step names: " ++ toString (unusedStepNameCount unusedSteps) ++ " / "
           ++ toString (stepNameCount steps),
         "Unused concepts: " ++ toString unusedConcepts.length ++ " / "
           ++ toString concepts.length]
      else
        ["ALL CLEAN!"]) ++ [summarySeparator])

/-! ### Timing model of `formatForStepSearch`

`formatForStepSearch` runs, for every file under the specs directory,
`[ $(tail -c1 file | wc -l) -eq 0 ] && echo >> file || :` inside
`specFiles.map(async file => { $`...` })` and then awaits `Promise.all`.
The async callback body neither `await`s nor `return`s the started process
promise, so the callback's own promise resolves as soon as the body has run —
at the tick the command is spawned — independent of how long the shell
command keeps running.  Ticks are abstract `Nat` instants; each file is a
pair `(spawn, dur)` of its command's spawn tick and running time. -/

/-- Tick at which one file's append-newline shell command finishes. -/
def appendCommandDone (spawn dur : Nat) : Nat := spawn + dur

/-- Tick at which the promise returned by the map callback resolves: the body
contains no `await` and discards the process promise, so it resolves at the
spawn tick, ignoring the command duration. -/
def mapCallbackResolved (spawn _dur : Nat) : Nat := spawn

/-- Tick at which `await Promise.all(promises)` in `formatForStepSearch`
resolves: once every callback promise has resolved. -/
def formatForStepSearchResolved (files : List (Nat × Nat)) : Nat :=
  (files.map (fun f => mapCallbackResolved f.1 f.2)).foldr max 0

/-- Earliest tick at which `exec` can issue the first `isUnused` check:
strictly after `await formatForStepSearch(specsDir)` has resolved. -/
def firstUsageCheckStart (files : List (Nat × Nat)) : Nat :=
  formatForStepSearchResolved files + 1

/-! ### Newline normalization of one spec file -/

/-- `tail -c1 file`: the last byte of the file, if any. -/
def lastByte (content : List Char) : List Char :=
  match content.getLast? with
  | some c => [c]
  | none => []

/-- `wc -l`: the number of newline characters. -/
def newlineCount (bytes : List Char) : Nat :=
  bytes.countP (fun c => c = '\n')

/-- The per-file shell command of `formatForStepSearch`:
`[ $(tail -c1 file | wc -l) -eq 0 ] && echo >> file || :` — append a single
newline when the last byte is not a newline (in particular when the file is
empty), otherwise leave the file untouched. -/
def normalizeSpecFile (content : List Char) : List Char :=
  if newlineCount (lastByte content) = 0 then content ++ ['\n'] else content

/-! ### Names decomposed into placeholder and literal segments

To state the pattern-builder property for all names "containing exactly k
placeholder spans delimited by `<` and `>`" we describe such names as a
segment list: literal runs interleaved with placeholder spans.  `renderName`
rebuilds the raw name (each placeholder with its delimiters); `renderPattern`
rebuilds the replaced body (each placeholder as the wildcard token `.+`), so
the rendered body carries exactly one `.+` per placeholder segment, at the
placeholder's position. -/

/-- One segment of a declared name. -/
inductive Segment where
  | lit (s : List Char)
  | ph (s : List Char)
deriving DecidableEq, Repr

/-- The raw characters a segment contributes to the declared name. -/
def segName : Segment → List Char
  | .lit s => s
  | .ph s => '<' :: (s ++ ['>'])

/-- The characters a segment contributes to the replaced pattern body. -/
def segPattern : Segment → List Char
  | .lit s => s
  | .ph _ => ['.', '+']

/-- The declared name described by a segment list. -/
def renderName : List Segment → List Char
  | [] => []
  | seg :: rest => segName seg ++ renderName rest

/-- The replaced pattern body described by a segment list. -/
def renderPattern : List Segment → List Char
  | [] => []
  | seg :: rest => segPattern seg ++ renderPattern rest

/-- Well-formedness of a segment: a literal run carries no stray placeholder
delimiter, and a placeholder span closes (no `>` inside) on the same line. -/
def segOk : Segment → Bool
  | .lit s => hasNoChar '<' s && hasNoChar '>' s
  | .ph s => hasNoChar '>' s && hasNoChar '\n' s

/-- Well-formedness of a whole segment list: the described name consists of
exactly its placeholder spans and delimiter-free literal text. -/
def goodSegs (segs : List Segment) : Bool :=
  segs.all segOk

/-- Demo project for concrete runs: one declared step that the specs use. -/
def demoUsedSteps : List (List Definition) :=
  [[createDefinition "Login as admin" (createStepNamePattern "Login as admin")]]

/-- Demo project for concrete runs: one declared step the specs never use. -/
def demoUnusedSteps : List (List Definition) :=
  [[createDefinition "Logout" (createStepNamePattern "Logout")]]

/-- Demo specs corpus: a single successfully read line. -/
def demoCorpus : Option (List String) :=
  some ["* Login as admin"]

/-! ## Theorems -/

/-- C1, counterexample.  The claim says a failed read of the corpus aborts
the run and is never turned into the boolean "unused" result, staying
distinct from the no-match outcome.  In the code the `try/catch` around the
pipeline catches the read failure (`corpus = none`) and returns the same
boolean `true` that the no-match outcome produces: at the concrete pattern
for `Logout` and a corpus without a matching line, the two results are the
identical boolean. -/
theorem isUnused_readFailure_counterexample :
    isUnused none "^\\*\\s+Logout\\s*$" = true ∧
    isUnused (some ["* Sign in", "* Sign out"]) "^\\*\\s+Logout\\s*$" = true ∧
    isUnused none "^\\*\\s+Logout\\s*$"
      = isUnused (some ["* Sign in", "* Sign out"]) "^\\*\\s+Logout\\s*$" := by
  decide

/-- C1, amended.  A read failure of the corpus during `isUnused` is caught
and converted into the boolean result `true` ("unused"), the same value the
normal "no matching line" outcome yields: for every pattern and every corpus
in which no line matches, both cases return `true` and the run does not
abort. -/
theorem isUnused_failure_and_noMatch_agree (pat : String) (lines : List String)
    (h : lines.all (fun l => !greLineMatch pat l) = true) :
    isUnused none pat = true ∧ isUnused (some lines) pat = true ∧
    isUnused none pat = isUnused (some lines) pat := by
  have hany : lines.any (greLineMatch pat) = false := by
    rw [List.any_eq_false]
    intro l hl
    simpa using List.all_eq_true.mp h l hl
  refine ⟨rfl, ?_, ?_⟩ <;> simp [isUnused, hany]

/-- C1, witness for the amended theorem at a concrete pattern and corpus. -/
theorem isUnused_failure_and_noMatch_agree_witness :
    isUnused none (createStepNamePattern "Logout") = true ∧
    isUnused (some ["* Login as admin"]) (createStepNamePattern "Logout") = true ∧
    isUnused none (createStepNamePattern "Logout")
      = isUnused (some ["* Login as admin"]) (createStepNamePattern "Logout") :=
  isUnused_failure_and_noMatch_agree (createStepNamePattern "Logout")
    ["* Login as admin"] (by decide)

/-- C2.  The claim says every append-newline operation issued by
`formatForStepSearch` finishes before any `isUnused` starts.  In the code the
map callback `async file => { $`...` }` neither awaits nor returns the
started process, so the promise `Promise.all` waits for resolves at the spawn
tick: with one spec file whose append command is spawned at tick 0 and runs
for 5 ticks, `formatForStepSearch` resolves at tick 0 and the first usage
check can start at tick 1, before the append finishes at tick 5. -/
theorem formatForStepSearch_missing_await :
    formatForStepSearchResolved [(0, 5)] = 0 ∧
    appendCommandDone 0 5 = 5 ∧
    firstUsageCheckStart [(0, 5)] < appendCommandDone 0 5 := by
  decide

/-- C3, counterexample.  The claim says that with no test-source files
`findSteps` returns an empty sequence and the run does not crash; in the code
the extraction pipeline's final `grep -o` then selects nothing and exits 1,
so under zx's pipefail the awaited command throws and `findSteps` rejects. -/
theorem findSteps_noFiles_counterexample :
    findSteps [] = Except.error () ∧ findSteps [] ≠ Except.ok [] := by
  refine ⟨rfl, fun h => ?_⟩
  rw [show findSteps [] = Except.error () from rfl] at h
  exact Except.noConfusion h

/-- C3, amended.  When the step-extraction pipeline finds no quoted step
declaration — in particular when the source directory contains no `.kt`
files at all — its final `grep -o` exits 1, zx's pipefail turns the pipeline
into a thrown error, and `findSteps` rejects, aborting the run instead of
returning an empty sequence. -/
theorem findSteps_noFiles_error (ktFiles : List (List String))
    (h : stepQuotedLines ktFiles = []) : findSteps ktFiles = Except.error () := by
  simp [findSteps, h]

/-- C3, witness: the empty source directory. -/
theorem findSteps_noFiles_error_witness :
    stepQuotedLines [] = [] ∧ findSteps [] = Except.error () :=
  ⟨rfl, findSteps_noFiles_error [] rfl⟩

/-- C7.  The pattern built for `Add <a> and <b>` matches `* Add 3 and 4`,
does not match `Add 3 and 4` (missing leading `*` marker), and does not
match `* Add 3 and` (missing the second argument), under the grep `-E`
line-matching semantics of the emitted anchored pattern. -/
theorem addStepPattern_matching :
    greLineMatch (createStepNamePattern "Add <a> and <b>") "* Add 3 and 4" = true ∧
    greLineMatch (createStepNamePattern "Add <a> and <b>") "Add 3 and 4" = false ∧
    greLineMatch (createStepNamePattern "Add <a> and <b>") "* Add 3 and" = false := by
  decide

/-- C8.  A concept file whose only line is the header `# Checkout Flow`
yields exactly one Declaration, named `Checkout Flow`, and the pattern built
for that name matches the line `* Checkout Flow` but not `* Checkout Flows`. -/
theorem conceptHeader_roundTrip :
    findConcepts [["# Checkout Flow"]] =
      Except.ok [createDefinition "Checkout Flow" (createStepNamePattern "Checkout Flow")] ∧
    greLineMatch (createStepNamePattern "Checkout Flow") "* Checkout Flow" = true ∧
    greLineMatch (createStepNamePattern "Checkout Flow") "* Checkout Flows" = false :=
  ⟨rfl, by decide, by decide⟩

/-- C9.  The newline normalization is a no-op on a file that already ends
with a newline: its `tail -c1 | wc -l` probe counts one newline, so the
append branch is not taken and the content stays byte-identical. -/
theorem normalizeSpecFile_noop_of_trailing_newline (content : List Char)
    (h : content.getLast? = some '\n') : normalizeSpecFile content = content := by
  have hl : lastByte content = ['\n'] := by
    unfold lastByte
    rw [h]
  unfold normalizeSpecFile
  rw [hl, if_neg (by decide)]

/-- C9, witness: a concrete newline-terminated file. -/
theorem normalizeSpecFile_noop_witness :
    ("ok\n".data.getLast? = some '\n') ∧ normalizeSpecFile "ok\n".data = "ok\n".data :=
  ⟨by decide, normalizeSpecFile_noop_of_trailing_newline "ok\n".data (by decide)⟩

/-- C10.  A zero-byte file has no last byte, so the `tail -c1 | wc -l` probe
counts zero newlines and the normalization appends one: the normalized file
is exactly one newline character. -/
theorem normalizeSpecFile_empty :
    newlineCount (lastByte []) = 0 ∧ normalizeSpecFile [] = ['\n'] := by
  decide

/-! ### Helper lemmas about the placeholder scan -/

/-- Splitting a `hasNoChar` fact at a cons cell. -/
theorem hasNoChar_cons (x c : Char) (cs : List Char) (h : hasNoChar x (c :: cs) = true) :
    c ≠ x ∧ hasNoChar x cs = true := by
  by_cases hc : c = x
  · simp [hasNoChar, hc] at h
  · exact ⟨hc, by simpa [hasNoChar, hc] using h⟩

/-- `hasNoChar` distributes over append. -/
theorem hasNoChar_append (x : Char) (a b : List Char) :
    hasNoChar x (a ++ b) = (hasNoChar x a && hasNoChar x b) := by
  induction a with
  | nil => rfl
  | cons c cs ih => by_cases hc : c = x <;> simp [hasNoChar, hc, ih]

/-- The remainder returned by `findGtRest` is strictly shorter. -/
theorem findGtRest_length : ∀ (l r : List Char), findGtRest l = some r → r.length < l.length := by
  intro l
  induction l with
  | nil => intro r h; exact absurd h (by simp [findGtRest])
  | cons c cs ih =>
    intro r h
    by_cases hc : c = '>'
    · rw [findGtRest, if_pos hc] at h
      cases h
      exact Nat.lt_succ_self _
    · by_cases hn : c = '\n'
      · rw [findGtRest, if_neg hc, if_pos hn] at h
        exact absurd h (by simp)
      · rw [findGtRest, if_neg hc, if_neg hn] at h
        exact Nat.lt_trans (ih r h) (Nat.lt_succ_self _)

/-- Scanning across a span free of `>` and newlines finds the closing `>`. -/
theorem findGtRest_append (s t : List Char)
    (h1 : hasNoChar '>' s = true) (h2 : hasNoChar '\n' s = true) :
    findGtRest (s ++ ('>' :: t)) = some t := by
  induction s with
  | nil => simp [findGtRest]
  | cons c cs ih =>
    obtain ⟨hc1, hcs1⟩ := hasNoChar_cons '>' c cs h1
    obtain ⟨hc2, hcs2⟩ := hasNoChar_cons '\n' c cs h2
    rw [List.cons_append, findGtRest, if_neg hc1, if_neg hc2]
    exact ih hcs1 hcs2

/-- The fuelled scan is independent of the fuel, once sufficient. -/
theorem replacePlaceholdersF_congr : ∀ (f g : Nat) (l : List Char),
    l.length < f → l.length < g → replacePlaceholdersF f l = replacePlaceholdersF g l := by
  intro f
  induction f with
  | zero => intro g l hf _; exact absurd hf (Nat.not_lt_zero _)
  | succ f ih =>
    intro g l hf hg
    cases g with
    | zero => exact absurd hg (Nat.not_lt_zero _)
    | succ g =>
      cases l with
      | nil => rfl
      | cons c cs =>
        have hcs : cs.length < f := Nat.lt_of_succ_lt_succ hf
        have hcs' : cs.length < g := Nat.lt_of_succ_lt_succ hg
        by_cases hc : c = '<'
        · rw [replacePlaceholdersF, replacePlaceholdersF, if_pos hc, if_pos hc]
          cases hgt : findGtRest cs with
          | some rest =>
            have hr := findGtRest_length cs rest hgt
            show ('.' :: '+' :: replacePlaceholdersF f rest : List Char)
              = '.' :: '+' :: replacePlaceholdersF g rest
            rw [ih g rest (Nat.lt_trans hr hcs) (Nat.lt_trans hr hcs')]
          | none =>
            show ('<' :: replacePlaceholdersF f cs : List Char)
              = '<' :: replacePlaceholdersF g cs
            rw [ih g cs hcs hcs']
        · rw [replacePlaceholdersF, replacePlaceholdersF, if_neg hc, if_neg hc,
            ih g cs hcs hcs']

/-- Step equation of `replacePlaceholders` at a `<` that opens a closed span. -/
theorem replacePlaceholders_cons_open (cs rest : List Char)
    (hgt : findGtRest cs = some rest) :
    replacePlaceholders ('<' :: cs) = '.' :: '+' :: replacePlaceholders rest := by
  have hr := findGtRest_length cs rest hgt
  show replacePlaceholdersF (cs.length + 1 + 1) ('<' :: cs) = _
  rw [replacePlaceholdersF, if_pos rfl, hgt]
  show ('.' :: '+' :: replacePlaceholdersF (cs.length + 1) rest : List Char)
    = '.' :: '+' :: replacePlaceholders rest
  rw [replacePlaceholdersF_congr (cs.length + 1) (rest.length + 1) rest
    (Nat.lt_succ_of_lt hr) (Nat.lt_succ_self _)]
  rfl

/-- Step equation of `replacePlaceholders` at an ordinary character. -/
theorem replacePlaceholders_cons_other (c : Char) (cs : List Char) (hc : c ≠ '<') :
    replacePlaceholders (c :: cs) = c :: replacePlaceholders cs := by
  show replacePlaceholdersF (cs.length + 1 + 1) (c :: cs) = _
  rw [replacePlaceholdersF, if_neg hc]
  rfl

/-- The scan copies a `<`-free block unchanged. -/
theorem replacePlaceholders_lit_append (s t : List Char) (hs : hasNoChar '<' s = true) :
    replacePlaceholders (s ++ t) = s ++ replacePlaceholders t := by
  induction s with
  | nil => rfl
  | cons c cs ih =>
    obtain ⟨hc, hcs⟩ := hasNoChar_cons '<' c cs hs
    rw [List.cons_append, replacePlaceholders_cons_other c (cs ++ t) hc, ih hcs]
    rfl

/-- The scan replaces one whole placeholder span with the wildcard token. -/
theorem replacePlaceholders_ph_cons (s t : List Char)
    (h1 : hasNoChar '>' s = true) (h2 : hasNoChar '\n' s = true) :
    replacePlaceholders ('<' :: (s ++ ('>' :: t))) = '.' :: '+' :: replacePlaceholders t :=
  replacePlaceholders_cons_open (s ++ ('>' :: t)) t (findGtRest_append s t h1 h2)

/-- On a well-formed segment list the scan rewrites the rendered name into
the rendered pattern body. -/
theorem replacePlaceholders_renderName (segs : List Segment) (h : goodSegs segs = true) :
    replacePlaceholders (renderName segs) = renderPattern segs := by
  induction segs with
  | nil => rfl
  | cons seg rest ih =>
    rw [goodSegs, List.all_cons, Bool.and_eq_true] at h
    obtain ⟨hseg, hrest⟩ := h
    cases seg with
    | lit s =>
      rw [segOk, Bool.and_eq_true] at hseg
      show replacePlaceholders (s ++ renderName rest) = s ++ renderPattern rest
      rw [replacePlaceholders_lit_append s _ hseg.1, ih hrest]
    | ph s =>
      rw [segOk, Bool.and_eq_true] at hseg
      show replacePlaceholders (('<' :: (s ++ ['>'])) ++ renderName rest)
        = '.' :: '+' :: renderPattern rest
      rw [List.cons_append, List.append_assoc, List.singleton_append,
        replacePlaceholders_ph_cons s _ hseg.1 hseg.2, ih hrest]

/-- A well-formed segment list renders a pattern body free of placeholder
delimiters. -/
theorem renderPattern_no_delims (segs : List Segment) (h : goodSegs segs = true) :
    hasNoChar '<' (renderPattern segs) = true ∧ hasNoChar '>' (renderPattern segs) = true := by
  induction segs with
  | nil => exact ⟨rfl, rfl⟩
  | cons seg rest ih =>
    rw [goodSegs, List.all_cons, Bool.and_eq_true] at h
    obtain ⟨hseg, hrest⟩ := h
    obtain ⟨ih1, ih2⟩ := ih hrest
    cases seg with
    | lit s =>
      rw [segOk, Bool.and_eq_true] at hseg
      constructor
      · show hasNoChar '<' (s ++ renderPattern rest) = true
        rw [hasNoChar_append, hseg.1, ih1]
        rfl
      · show hasNoChar '>' (s ++ renderPattern rest) = true
        rw [hasNoChar_append, hseg.2, ih2]
        rfl
    | ph s =>
      constructor
      · show hasNoChar '<' (['.', '+'] ++ renderPattern rest) = true
        rw [hasNoChar_append, ih1]
        rfl
      · show hasNoChar '>' (['.', '+'] ++ renderPattern rest) = true
        rw [hasNoChar_append, ih2]
        rfl

/-- C4.  For every name made of literal text and `k` placeholder spans
delimited by `<` and `>` (rendered from a well-formed segment list with `k`
placeholder segments), the built pattern is the anchored wrapper around the
body in which each of the `k` placeholder positions holds exactly the
wildcard token `.+` (one token per placeholder, by `renderPattern`), and the
body retains no `<` or `>` delimiter. -/
theorem createStepNamePattern_placeholders (segs : List Segment) (h : goodSegs segs = true) :
    (createStepNamePattern (String.mk (renderName segs))).data
      = "^\\*\\s+".data ++ renderPattern segs ++ "\\s*$".data ∧
    hasNoChar '<' (renderPattern segs) = true ∧
    hasNoChar '>' (renderPattern segs) = true := by
  refine ⟨?_, (renderPattern_no_delims segs h).1, (renderPattern_no_delims segs h).2⟩
  show ("^\\*\\s+" ++ String.mk (replacePlaceholders (renderName segs)) ++ "\\s*$").data = _
  rw [replacePlaceholders_renderName segs h]
  simp [String.data_append, List.append_assoc]

/-- C4, witness: the segment decomposition of `Add <a> and <b>`. -/
theorem createStepNamePattern_placeholders_witness :
    goodSegs [Segment.lit "Add ".data, Segment.ph "a".data,
        Segment.lit " and ".data, Segment.ph "b".data] = true ∧
    ((createStepNamePattern (String.mk (renderName [Segment.lit "Add ".data,
          Segment.ph "a".data, Segment.lit " and ".data, Segment.ph "b".data]))).data
        = "^\\*\\s+".data ++ renderPattern [Segment.lit "Add ".data, Segment.ph "a".data,
            Segment.lit " and ".data, Segment.ph "b".data] ++ "\\s*$".data ∧
      hasNoChar '<' (renderPattern [Segment.lit "Add ".data, Segment.ph "a".data,
          Segment.lit " and ".data, Segment.ph "b".data]) = true ∧
      hasNoChar '>' (renderPattern [Segment.lit "Add ".data, Segment.ph "a".data,
          Segment.lit " and ".data, Segment.ph "b".data]) = true) :=
  ⟨by decide, createStepNamePattern_placeholders [Segment.lit "Add ".data,
    Segment.ph "a".data, Segment.lit " and ".data, Segment.ph "b".data] (by decide)⟩

/-! ### Helper lemmas about the usage annotation -/

/-- Annotating a group does not change whether some member is unused. -/
theorem checked_any (corpus : Option (List String)) (g : List Definition) :
    (g.map (checkDefinition corpus)).any (fun d => d.unused)
      = g.any (fun d => isUnused corpus d.pattern) := by
  induction g with
  | nil => rfl
  | cons d ds ih => simp [checkDefinition, ih]

/-- `findUnusedSteps` keeps exactly the groups with an unused member. -/
theorem findUnusedSteps_eq (steps : List (List Definition)) (corpus : Option (List String)) :
    findUnusedSteps steps corpus =
      (steps.filter (fun g => g.any (fun d => isUnused corpus d.pattern))).map
        (fun g => g.map (checkDefinition corpus)) := by
  induction steps with
  | nil => rfl
  | cons g gs ih =>
    show ((g :: gs).map _).filter _ = _
    rw [List.map_cons, List.filter_cons, List.filter_cons, checked_any]
    cases hg : g.any (fun d => isUnused corpus d.pattern) with
    | true => rw [if_pos rfl, if_pos rfl, List.map_cons]; exact congrArg _ ih
    | false => rw [if_neg (by simp), if_neg (by simp)]; exact ih

/-- Within one group, the printed name lines of the annotated, unused members
are the name lines of the members `isUnused` flags. -/
theorem printed_group_eq (corpus : Option (List String)) (g : List Definition) :
    ((g.map (checkDefinition corpus)).filter (fun d => d.unused)).map
        (fun d => "* " ++ d.stepName)
      = (g.filter (fun d => isUnused corpus d.pattern)).map (fun d => "* " ++ d.stepName) := by
  induction g with
  | nil => rfl
  | cons d ds ih =>
    rw [List.map_cons, List.filter_cons, List.filter_cons,
      show (checkDefinition corpus d).unused = isUnused corpus d.pattern from rfl]
    cases hd : isUnused corpus d.pattern with
    | true =>
      rw [if_pos rfl, if_pos rfl, List.map_cons, List.map_cons]
      exact congrArg _ ih
    | false => rw [if_neg (by simp), if_neg (by simp)]; exact ih

/-- Flattened version of `printed_group_eq` over a list of groups. -/
theorem printed_groups_eq (corpus : Option (List String)) (l : List (List Definition)) :
    ((l.map (fun g => g.map (checkDefinition corpus))).flatMap (fun g =>
        (g.filter (fun d => d.unused)).map (fun d => "* " ++ d.stepName)))
      = l.flatMap (fun g =>
          (g.filter (fun d => isUnused corpus d.pattern)).map (fun d => "* " ++ d.stepName)) := by
  induction l with
  | nil => rfl
  | cons g gs ih =>
    rw [List.map_cons, List.flatMap_cons, List.flatMap_cons, printed_group_eq, ih]

/-- C6.  A step group is collected by `findUnusedSteps` (and so reported)
exactly when at least one of its member declarations is unused, and the
report prints, per flagged group, exactly the names of its unused members:
the collected groups are the annotated groups with an unused member, and the
printed body lines are the `* name` lines of precisely those members of
flagged groups that `isUnused` flags. -/
theorem findUnusedSteps_report (steps : List (List Definition)) (corpus : Option (List String)) :
    findUnusedSteps steps corpus =
      (steps.filter (fun g => g.any (fun d => isUnused corpus d.pattern))).map
        (fun g => g.map (checkDefinition corpus)) ∧
    printUnusedSteps (findUnusedSteps steps corpus) =
      "Unused step names:" ::
        (((steps.filter (fun g => g.any (fun d => isUnused corpus d.pattern))).flatMap
            (fun g => (g.filter (fun d => isUnused corpus d.pattern)).map
              (fun d => "* " ++ d.stepName))) ++ [""]) := by
  refine ⟨findUnusedSteps_eq steps corpus, ?_⟩
  rw [printUnusedSteps, findUnusedSteps_eq, printed_groups_eq]

/-! ### The summary with an empty concept list -/

/-- C5, counterexample.  The claim says that with zero concept files the
summary always reports `0 / 0` concepts.  In a run where additionally no
step is unused, `printSummary` takes its `ALL CLEAN!` branch and prints no
concept counts at all: the concrete clean demo project below produces a
summary without the `Unused concepts: 0 / 0` line. -/
theorem summary_allClean_counterexample :
    findConcepts [] = Except.ok [] ∧
    findUnusedSteps demoUsedSteps demoCorpus = [] ∧
    printSummary demoUsedSteps (findUnusedSteps demoUsedSteps demoCorpus) []
        (findUnusedConcepts [] demoCorpus)
      = [summarySeparator, "ALL CLEAN!", summarySeparator] ∧
    ¬ ("Unused concepts: 0 / 0" ∈
        printSummary demoUsedSteps (findUnusedSteps demoUsedSteps demoCorpus) []
          (findUnusedConcepts [] demoCorpus)) := by
  refine ⟨rfl, by decide, by decide, by decide⟩

/-- C5, amended.  With zero concept files `findConcepts` returns the empty
sequence without error, and whenever the summary takes its counts branch —
that is, when at least one step name is unused — it reports `0 / 0` for
concepts; in an entirely clean run it prints `ALL CLEAN!` instead. -/
theorem findConcepts_empty_summary (steps : List (List Definition))
    (corpus : Option (List String))
    (h : 0 < unusedStepNameCount (findUnusedSteps steps corpus)) :
    findConcepts [] = Except.ok [] ∧
    "Unused concepts: 0 / 0" ∈
      printSummary steps (findUnusedSteps steps corpus) []
        (findUnusedConcepts [] corpus) := by
  refine ⟨rfl, ?_⟩
  have hc : findUnusedConcepts [] corpus = [] := rfl
  rw [hc, printSummary, if_pos (Or.inl h)]
  have h3 : ("Unused concepts: " ++ toString ([] : List CheckedDefinition).length ++ " / "
      ++ toString ([] : List Definition).length) = "Unused concepts: 0 / 0" := rfl
  rw [h3]
  exact List.mem_cons_of_mem _ (List.mem_cons_of_mem _ (List.mem_cons_of_mem _
    (List.mem_cons_self _ _)))

/-- C5, witness for the amended theorem: a project whose only step is unused. -/
theorem findConcepts_empty_summary_witness :
    findConcepts [] = Except.ok [] ∧
    "Unused concepts: 0 / 0" ∈
      printSummary demoUnusedSteps (findUnusedSteps demoUnusedSteps demoCorpus) []
        (findUnusedConcepts [] demoCorpus) :=
  findConcepts_empty_summary demoUnusedSteps demoCorpus (by decide)
